import Mathlib

/-!
Shallow embedding of the chunked transfer engine of tg-disk (src/main.go):
the chunk splitter, the manifest codec, the upload and download
orchestrators over an opaque blob store, the slot-array reassembly phase,
and the worker-pool admission gate.  File content, filenames and store
handles are modelled as `List Char` (Go strings are byte sequences; every
claim-relevant operation is per-character).
-/

namespace TgDisk

/-- Chunk size `C`: `const chunkSize = 20 * 1024 * 1024` (src/main.go, line 264). -/
def chunkSize : Nat := 20 * 1024 * 1024

/-- Worker limit `W`: `threadNumbers = 4` (src/main.go, line 44). -/
def threadNumbers : Nat := 4

/-- The chunk-splitting loop of `handleUpload` (src/main.go, lines 310-333):
repeatedly `io.ReadFull` into a `chunkSize` buffer; a read of `n = 0` bytes
terminates without emitting; otherwise the `n` read bytes are emitted as one
piece and the loop stops when `n < chunkSize` (short read at end of stream). -/
def splitChunks (s : List Char) : List (List Char) :=
  if s = [] then []
  else if s.length < chunkSize then [s]
  else s.take chunkSize :: splitChunks (s.drop chunkSize)
termination_by s.length
decreasing_by
  simp only [List.length_drop]
  have hc : 0 < chunkSize := by decide
  rename_i h2
  omega

theorem splitChunks_nil : splitChunks [] = [] := by
  rw [splitChunks]
  simp

theorem splitChunks_small (s : List Char) (h0 : s ≠ []) (h1 : s.length < chunkSize) :
    splitChunks s = [s] := by
  rw [splitChunks]
  simp [h0, h1]

theorem splitChunks_large (s : List Char) (h1 : chunkSize ≤ s.length) :
    splitChunks s = s.take chunkSize :: splitChunks (s.drop chunkSize) := by
  have h0 : s ≠ [] := by
    intro he
    rw [he] at h1
    simp at h1
    have : 0 < chunkSize := by decide
    omega
  rw [splitChunks]
  simp [h0]
  intro h2
  omega

theorem splitChunks_eq_nil_iff (s : List Char) : splitChunks s = [] ↔ s = [] := by
  constructor
  · intro h
    by_contra hne
    rcases Nat.lt_or_ge s.length chunkSize with hlt | hge
    · rw [splitChunks_small s hne hlt] at h
      simp at h
    · rw [splitChunks_large s hge] at h
      simp at h
  · intro h
    rw [h, splitChunks_nil]

theorem splitChunks_join (s : List Char) : (splitChunks s).flatten = s := by
  induction s using splitChunks.induct with
  | case1 => rw [splitChunks_nil]; rfl
  | case2 s h0 h1 =>
    rw [splitChunks_small s h0 h1]
    simp
  | case3 s h0 h1 ih =>
    rw [splitChunks_large s (by omega)]
    simp only [List.flatten_cons, ih]
    exact List.take_append_drop chunkSize s

/-- The fragment of Go's `unicode.IsSpace` visible through one-byte and
Latin-1 characters: the characters `strings.TrimSpace` strips at either end
(src/main.go, lines 478 and 483 call `strings.TrimSpace`). -/
def isSpaceChar (c : Char) : Bool :=
  c = ' ' || c = '\t' || c = '\n' || c = '\x0b' || c = '\x0c' || c = '\r' ||
  c = '\u0085' || c = '\u00A0'

/-- Left half of `strings.TrimSpace`. -/
def dropLeading (s : List Char) : List Char :=
  s.dropWhile isSpaceChar

/-- Right half of `strings.TrimSpace`. -/
def dropTrailing (s : List Char) : List Char :=
  (s.reverse.dropWhile isSpaceChar).reverse

/-- Go's `strings.TrimSpace`: remove whitespace from both ends. -/
def trimSpace (s : List Char) : List Char :=
  dropLeading (dropTrailing s)

/-- Go's `strings.Split(s, "\n")` (src/main.go, line 478): split at every
newline; `n` newlines yield `n + 1` fields. -/
def splitOnNl : List Char → List (List Char)
  | [] => [[]]
  | c :: rest =>
    if c = '\n' then [] :: splitOnNl rest
    else
      match splitOnNl rest with
      | [] => [[c]]
      | l :: ls => (c :: l) :: ls

/-- The blank-line removal of `handleDownload` (src/main.go, lines 480-487):
split the trimmed artifact on newlines, trim each line, keep non-blank lines. -/
def cleanLines (s : List Char) : List (List Char) :=
  ((splitOnNl (trimSpace s)).map trimSpace).filter (fun l => !l.isEmpty)

/-- Manifest decoding in `handleDownload` (src/main.go, lines 478-495): fewer
than two clean lines is the `FormatError` case (HTTP 400 at line 490);
otherwise the first clean line is the filename and the rest are the piece
handles.  `none` models the `FormatError`. -/
def decodeManifest (s : List Char) : Option (List Char × List (List Char)) :=
  match cleanLines s with
  | name :: h :: hs => some (name, h :: hs)
  | _ => none

/-- Manifest encoding in `handleUpload` (src/main.go, lines 376-381): the
original filename on the first line, then one handle per line, each line
newline-terminated. -/
def encodeManifest (name : List Char) (handles : List (List Char)) : List Char :=
  name ++ '\n' :: (handles.map (fun h => h ++ ['\n'])).flatten

/-- A string usable as one manifest line: non-empty, containing no newline,
and not starting or ending with a whitespace character. -/
def lineToken (t : List Char) : Bool :=
  !t.isEmpty && t.all (fun c => c != '\n') &&
  (match t with | [] => true | c :: _ => !isSpaceChar c) &&
  (match t.reverse with | [] => true | c :: _ => !isSpaceChar c)

theorem dropWhile_append_of_forall {p : Char → Bool} (a b : List Char)
    (h : ∀ c ∈ a, p c = true) :
    List.dropWhile p (a ++ b) = List.dropWhile p b := by
  induction a with
  | nil => rfl
  | cons c rest ih =>
    have hc : p c = true := h c (by simp)
    simp only [List.cons_append, List.dropWhile_cons, hc, if_true]
    exact ih (fun x hx => h x (by simp [hx]))

theorem dropTrailing_append_spaces (s ws : List Char)
    (h : ∀ c ∈ ws, isSpaceChar c = true) :
    dropTrailing (s ++ ws) = dropTrailing s := by
  unfold dropTrailing
  rw [List.reverse_append, dropWhile_append_of_forall ws.reverse s.reverse
    (fun c hc => h c (by simpa using hc))]

theorem trimSpace_append_spaces (s ws : List Char)
    (h : ∀ c ∈ ws, isSpaceChar c = true) :
    trimSpace (s ++ ws) = trimSpace s := by
  unfold trimSpace
  rw [dropTrailing_append_spaces s ws h]

theorem dropLeading_of_headOk (s : List Char)
    (h : ∀ c, s.head? = some c → isSpaceChar c = false) :
    dropLeading s = s := by
  cases s with
  | nil => rfl
  | cons c rest =>
    have hc : isSpaceChar c = false := h c rfl
    simp [dropLeading, List.dropWhile_cons, hc]

theorem dropTrailing_of_lastOk (s : List Char)
    (h : ∀ c, s.reverse.head? = some c → isSpaceChar c = false) :
    dropTrailing s = s := by
  unfold dropTrailing
  cases hr : s.reverse with
  | nil =>
    simpa using (List.reverse_eq_nil_iff.mp hr).symm
  | cons c rest =>
    have hc : isSpaceChar c = false := h c (by rw [hr]; rfl)
    rw [List.dropWhile_cons, hc]
    simp only [Bool.false_eq_true, if_false]
    rw [← hr, List.reverse_reverse]

theorem lineToken_spec (t : List Char) (h : lineToken t = true) :
    t ≠ [] ∧ ('\n' ∉ t) ∧
    (∀ c, t.head? = some c → isSpaceChar c = false) ∧
    (∀ c, t.reverse.head? = some c → isSpaceChar c = false) := by
  unfold lineToken at h
  simp only [Bool.and_eq_true, Bool.not_eq_true'] at h
  obtain ⟨⟨⟨h1, h2⟩, h3⟩, h4⟩ := h
  refine ⟨by simpa [List.isEmpty_iff] using h1, ?_, ?_, ?_⟩
  · intro hmem
    have := List.all_eq_true.mp h2 '\n' hmem
    simp at this
  · intro c hc
    cases t with
    | nil => simp at hc
    | cons a rest =>
      simp only [List.head?_cons, Option.some_inj] at hc
      subst hc
      simpa using h3
  · intro c hc
    cases hr : t.reverse with
    | nil => rw [hr] at hc; simp at hc
    | cons a rest =>
      rw [hr] at hc h4
      simp only [List.head?_cons, Option.some_inj] at hc
      subst hc
      simpa using h4

theorem trimSpace_of_lineToken (t : List Char) (h : lineToken t = true) :
    trimSpace t = t := by
  obtain ⟨-, -, h3, h4⟩ := lineToken_spec t h
  unfold trimSpace
  rw [dropTrailing_of_lastOk t h4, dropLeading_of_headOk t h3]

theorem splitOnNl_of_no_nl (l : List Char) (h : '\n' ∉ l) :
    splitOnNl l = [l] := by
  induction l with
  | nil => rfl
  | cons c rest ih =>
    have hc : ¬ c = '\n' := fun he => h (by simp [he])
    have hr : splitOnNl rest = [rest] := ih (fun hm => h (by simp [hm]))
    simp [splitOnNl, hc, hr]

theorem splitOnNl_append_line (a t : List Char) (h : '\n' ∉ a) :
    splitOnNl (a ++ '\n' :: t) = a :: splitOnNl t := by
  induction a with
  | nil => simp [splitOnNl]
  | cons c rest ih =>
    have hc : ¬ c = '\n' := fun he => h (by simp [he])
    have hr := ih (fun hm => h (by simp [hm]))
    simp only [List.cons_append, splitOnNl, hc, if_false, List.append_eq]
    rw [hr]

theorem splitOnNl_flatten_lines (hs : List (List Char)) (t : List Char)
    (hhs : ∀ x ∈ hs, '\n' ∉ x) (ht : '\n' ∉ t) :
    splitOnNl ((hs.map (fun h => h ++ ['\n'])).flatten ++ t) = hs ++ [t] := by
  induction hs with
  | nil => simpa using splitOnNl_of_no_nl t ht
  | cons x rest ih =>
    have hx : '\n' ∉ x := hhs x (by simp)
    have hr := ih (fun y hy => hhs y (by simp [hy]))
    simp only [List.map_cons, List.flatten_cons, List.append_assoc]
    have : x ++ ['\n'] ++ ((rest.map (fun h => h ++ ['\n'])).flatten ++ t)
        = x ++ '\n' :: ((rest.map (fun h => h ++ ['\n'])).flatten ++ t) := by
      simp
    rw [← List.append_assoc, this, splitOnNl_append_line x _ hx, hr]
    rfl

theorem head?_append_of_ne_nil (a b : List Char) (ha : a ≠ []) :
    (a ++ b).head? = a.head? := by
  cases a with
  | nil => exact absurd rfl ha
  | cons c rest => rfl

/-- Trailing-whitespace-tolerant manifest round trip: decoding the encoded
manifest, with any all-whitespace suffix appended, recovers the filename and
the handle list, provided each of them is a single-line token and the handle
list is non-empty. -/
theorem decode_encode (name : List Char) (handles : List (List Char))
    (ws : List Char)
    (hname : lineToken name = true)
    (hne : handles ≠ [])
    (hh : ∀ h ∈ handles, lineToken h = true)
    (hws : ∀ c ∈ ws, isSpaceChar c = true) :
    decodeManifest (encodeManifest name handles ++ ws) = some (name, handles) := by
  obtain ⟨hs, hl, rfl⟩ : ∃ hs hl, handles = hs ++ [hl] := by
    rcases List.eq_nil_or_concat handles with h | ⟨hs, hl, h⟩
    · exact absurd h hne
    · rw [List.concat_eq_append] at h
      exact ⟨hs, hl, h⟩
  have hltok : lineToken hl = true := hh hl (by simp)
  obtain ⟨hlne, hlnl, -, hllast⟩ := lineToken_spec hl hltok
  obtain ⟨hnne, hnnl, hnhead, -⟩ := lineToken_spec name hname
  -- the encoded artifact is P ++ ['\n'] for P ending in the last handle
  have hE : encodeManifest name (hs ++ [hl])
      = (name ++ '\n' :: ((hs.map (fun h => h ++ ['\n'])).flatten ++ hl)) ++ ['\n'] := by
    unfold encodeManifest
    simp
  set P : List Char := name ++ '\n' :: ((hs.map (fun h => h ++ ['\n'])).flatten ++ hl) with hP
  have htrim : trimSpace (encodeManifest name (hs ++ [hl]) ++ ws) = P := by
    rw [hE, List.append_assoc]
    rw [trimSpace_append_spaces P (['\n'] ++ ws)
      (by intro c hc; rcases List.mem_append.mp hc with h | h
          · simp at h; simp [h, isSpaceChar]
          · exact hws c h)]
    unfold trimSpace
    rw [dropTrailing_of_lastOk P ?hlast, dropLeading_of_headOk P ?hhead]
    case hlast =>
      intro c hc
      have hP2 : P = (name ++ '\n' :: (hs.map (fun h => h ++ ['\n'])).flatten) ++ hl := by
        rw [hP]
        simp
      rw [hP2, List.reverse_append,
        head?_append_of_ne_nil _ _ (by simpa using hlne)] at hc
      exact hllast c hc
    case hhead =>
      intro c hc
      rw [hP, head?_append_of_ne_nil _ _ hnne] at hc
      exact hnhead c hc
  have hsplit : splitOnNl P = name :: (hs ++ [hl]) := by
    rw [hP, splitOnNl_append_line name _ hnnl,
      splitOnNl_flatten_lines hs hl
        (fun x hx => (lineToken_spec x (hh x (by simp [hx]))).2.1) hlnl]
  have hclean : cleanLines (encodeManifest name (hs ++ [hl]) ++ ws)
      = name :: (hs ++ [hl]) := by
    unfold cleanLines
    rw [htrim, hsplit]
    have hmap : (name :: (hs ++ [hl])).map trimSpace = name :: (hs ++ [hl]) := by
      have : ∀ x ∈ name :: (hs ++ [hl]), trimSpace x = x := by
        intro x hx
        rcases List.mem_cons.mp hx with h | h
        · rw [h]; exact trimSpace_of_lineToken name hname
        · exact trimSpace_of_lineToken x (hh x h)
      calc (name :: (hs ++ [hl])).map trimSpace
          = (name :: (hs ++ [hl])).map id := List.map_congr_left this
        _ = name :: (hs ++ [hl]) := List.map_id _
    rw [hmap]
    rw [List.filter_eq_self.mpr]
    intro a ha
    rcases List.mem_cons.mp ha with h | h
    · rw [h]; simpa [List.isEmpty_iff] using hnne
    · have := (lineToken_spec a (hh a h)).1
      simpa [List.isEmpty_iff] using this
  unfold decodeManifest
  rw [hclean]
  cases hs with
  | nil => rfl
  | cons x rest => rfl

theorem chunkSize_eq : chunkSize = 20971520 := by
  norm_num [chunkSize]

theorem splitChunks_length (s : List Char) :
    (splitChunks s).length = (s.length + chunkSize - 1) / chunkSize := by
  induction s using splitChunks.induct with
  | case1 =>
    rw [splitChunks_nil, chunkSize_eq]
    rfl
  | case2 s h0 h1 =>
    rw [splitChunks_small s h0 h1]
    have hlen : 0 < s.length := List.length_pos.mpr h0
    rw [chunkSize_eq] at h1 ⊢
    simp only [List.length_cons, List.length_nil]
    omega
  | case3 s h0 h1 ih =>
    rw [splitChunks_large s (by omega)]
    simp only [List.length_cons, ih, List.length_drop]
    rw [chunkSize_eq] at h1 ⊢
    omega

theorem splitChunks_dropLast (s : List Char) :
    ∀ p ∈ (splitChunks s).dropLast, p.length = chunkSize := by
  induction s using splitChunks.induct with
  | case1 =>
    rw [splitChunks_nil]
    simp
  | case2 s h0 h1 =>
    rw [splitChunks_small s h0 h1]
    simp
  | case3 s h0 h1 ih =>
    rw [splitChunks_large s (by omega)]
    intro p hp
    rcases eq_or_ne (splitChunks (s.drop chunkSize)) [] with he | hne
    · rw [he] at hp
      simp at hp
    · rw [List.dropLast_cons_of_ne_nil hne] at hp
      rcases List.mem_cons.mp hp with h | h
      · rw [h, List.length_take]
        omega
      · exact ih p h

theorem splitChunks_getLast? (s : List Char) (p : List Char)
    (h : (splitChunks s).getLast? = some p) :
    p.length = (if s.length % chunkSize = 0 then chunkSize
                else s.length % chunkSize) := by
  induction s using splitChunks.induct with
  | case1 =>
    rw [splitChunks_nil] at h
    simp at h
  | case2 s h0 h1 =>
    rw [splitChunks_small s h0 h1] at h
    simp only [List.getLast?_singleton, Option.some_inj] at h
    rw [← h]
    have hlen : 0 < s.length := List.length_pos.mpr h0
    rw [if_neg]
    · exact (Nat.mod_eq_of_lt h1).symm
    · rw [Nat.mod_eq_of_lt h1]
      omega
  | case3 s h0 h1 ih =>
    rw [splitChunks_large s (by omega)] at h
    rcases eq_or_ne (splitChunks (s.drop chunkSize)) [] with he | hne
    · have hd : s.drop chunkSize = [] := (splitChunks_eq_nil_iff _).mp he
      have hlen : s.length = chunkSize := by
        have := congrArg List.length hd
        simp only [List.length_drop, List.length_nil] at this
        omega
      rw [he] at h
      simp only [List.getLast?_singleton, Option.some_inj] at h
      subst h
      rw [List.length_take, hlen]
      simp
    · obtain ⟨r, rs, hrs⟩ := List.exists_cons_of_ne_nil hne
      rw [hrs, List.getLast?_cons_cons] at h
      have := ih (by rw [hrs]; exact h)
      rw [List.length_drop] at this
      rw [chunkSize_eq] at this h1 ⊢
      split_ifs at this ⊢ <;> omega

theorem splitChunks_mem_ne_nil (s : List Char) :
    ∀ p ∈ splitChunks s, p ≠ [] := by
  induction s using splitChunks.induct with
  | case1 =>
    rw [splitChunks_nil]
    simp
  | case2 s h0 h1 =>
    rw [splitChunks_small s h0 h1]
    simpa using h0
  | case3 s h0 h1 ih =>
    rw [splitChunks_large s (by omega)]
    intro p hp
    rcases List.mem_cons.mp hp with h | h
    · rw [h]
      have : (s.take chunkSize).length = chunkSize := by
        rw [List.length_take]
        omega
      intro he
      rw [he] at this
      simp only [List.length_nil] at this
      rw [chunkSize_eq] at this
      omega
    · exact ih p h

theorem splitChunks_exact (s : List Char) (h : s.length = chunkSize) :
    splitChunks s = [s] := by
  rw [splitChunks_large s (by omega), List.take_of_length_le (by omega),
    List.drop_eq_nil_of_le (by omega), splitChunks_nil]

/-- C2: on the chunked path the splitter with `C = chunkSize = 20 MiB`
produces exactly `ceil(S / C)` pieces for an input of length `S`; every
piece except the last has length exactly `C`; the last piece has length
`S mod C`, or `C` when `S` is a positive exact multiple of `C`; no piece
is ever empty; and a stream of exactly `C` bytes yields exactly one piece. -/
theorem c2_splitter_shape (s : List Char) :
    (splitChunks s).length = (s.length + chunkSize - 1) / chunkSize
    ∧ (∀ p ∈ (splitChunks s).dropLast, p.length = chunkSize)
    ∧ (∀ p, (splitChunks s).getLast? = some p →
        p.length = (if s.length % chunkSize = 0 then chunkSize
                    else s.length % chunkSize))
    ∧ (∀ p ∈ splitChunks s, p ≠ [])
    ∧ (s.length = chunkSize → splitChunks s = [s]) :=
  ⟨splitChunks_length s, splitChunks_dropLast s,
   fun p h => splitChunks_getLast? s p h,
   splitChunks_mem_ne_nil s, splitChunks_exact s⟩

theorem c2_splitter_shape_witness :
    ((splitChunks ('a' :: 'b' :: [])).getLast? = some ('a' :: 'b' :: [])
      ∧ ('a' :: 'b' :: []).length
          = (if ('a' :: 'b' :: ([] : List Char)).length % chunkSize = 0
             then chunkSize
             else ('a' :: 'b' :: ([] : List Char)).length % chunkSize))
    ∧ ((List.replicate chunkSize 'c').length = chunkSize
      ∧ splitChunks (List.replicate chunkSize 'c')
          = [List.replicate chunkSize 'c']) :=
  ⟨⟨by rw [splitChunks_small ('a' :: 'b' :: []) (by decide) (by decide)]
       rfl,
    (c2_splitter_shape ('a' :: 'b' :: [])).2.2.1 ('a' :: 'b' :: [])
      (by rw [splitChunks_small ('a' :: 'b' :: []) (by decide) (by decide)]
          rfl)⟩,
   ⟨List.length_replicate chunkSize 'c',
    (c2_splitter_shape (List.replicate chunkSize 'c')).2.2.2.2
      (List.length_replicate chunkSize 'c')⟩⟩

/-- C3 (amended): the manifest round trip `decode (encode name handles)`
returns exactly `(name, handles)` — also with any all-whitespace suffix
(trailing blank lines, stray carriage returns) appended to the encoded
artifact — provided the filename and every handle is a single-line token:
non-empty, free of newlines, with no leading or trailing whitespace.  The
unrestricted claim is refuted by `c3_roundtrip_counterexample`. -/
theorem c3_manifest_roundtrip (name : List Char) (handles : List (List Char))
    (ws : List Char)
    (hname : lineToken name = true)
    (hne : handles ≠ [])
    (hh : ∀ h ∈ handles, lineToken h = true)
    (hws : ∀ c ∈ ws, isSpaceChar c = true) :
    decodeManifest (encodeManifest name handles) = some (name, handles)
    ∧ decodeManifest (encodeManifest name handles ++ ws)
        = some (name, handles) := by
  constructor
  · have := decode_encode name handles [] hname hne hh (by intro c hc; simp at hc)
    simpa using this
  · exact decode_encode name handles ws hname hne hh hws

theorem c3_manifest_roundtrip_witness :
    (lineToken ('f' :: []) = true
      ∧ ('h' :: []) :: ([] : List (List Char)) ≠ []
      ∧ (∀ h ∈ ('h' :: []) :: ([] : List (List Char)), lineToken h = true)
      ∧ (∀ c ∈ ('\r' :: '\n' :: []), isSpaceChar c = true))
    ∧ decodeManifest (encodeManifest ('f' :: []) (('h' :: []) :: [])
          ++ ('\r' :: '\n' :: []))
        = some (('f' :: []), ('h' :: []) :: []) :=
  ⟨⟨by decide, by decide, by decide, by decide⟩,
   (c3_manifest_roundtrip ('f' :: []) (('h' :: []) :: []) ('\r' :: '\n' :: [])
      (by decide) (by decide) (by decide) (by decide)).2⟩

/-- C3 counterexample: for the filename `"a "` (trailing blank) and handle
list `["h"]`, decoding the encoded manifest yields the trimmed filename
`"a"`, not the original one, so `decode (encode name handles) = (name,
handles)` does not hold for every filename. -/
theorem c3_roundtrip_counterexample :
    decodeManifest (encodeManifest ('a' :: ' ' :: []) (('h' :: []) :: []))
        = some (('a' :: []), ('h' :: []) :: [])
    ∧ ('a' :: ' ' :: []) ≠ ('a' :: []) := by
  constructor
  · decide
  · decide

/-- C4: manifest decoding yields the `FormatError` outcome exactly when
fewer than two lines remain after trimming and blank-line removal; on
success the first clean line is the filename and the remaining clean lines
are the handles, in order. -/
theorem c4_decode_failure_condition (s : List Char) :
    (decodeManifest s = none ↔ (cleanLines s).length < 2)
    ∧ (∀ name hs, decodeManifest s = some (name, hs) →
        name :: hs = cleanLines s ∧ hs ≠ []) := by
  unfold decodeManifest
  cases hcl : cleanLines s with
  | nil =>
    refine ⟨by simp, ?_⟩
    intro name hs h
    simp at h
  | cons a rest =>
    cases rest with
    | nil =>
      refine ⟨by simp, ?_⟩
      intro name hs h
      simp at h
    | cons b rs =>
      refine ⟨?_, ?_⟩
      · simp only [List.length_cons]
        constructor
        · intro h
          simp at h
        · intro h
          omega
      · intro name hs h
        simp only [Option.some_inj, Prod.mk.injEq] at h
        obtain ⟨h1, h2⟩ := h
        subst h1
        subst h2
        exact ⟨rfl, by simp⟩

theorem c4_decode_failure_condition_witness :
    decodeManifest ('f' :: '\n' :: 'h' :: '\n' :: [])
        = some (('f' :: []), ('h' :: []) :: [])
    ∧ ('f' :: []) :: (('h' :: []) :: [])
        = cleanLines ('f' :: '\n' :: 'h' :: '\n' :: [])
    ∧ ('h' :: []) :: ([] : List (List Char)) ≠ [] :=
  ⟨by decide,
   ((c4_decode_failure_condition ('f' :: '\n' :: 'h' :: '\n' :: [])).2
      ('f' :: []) (('h' :: []) :: []) (by decide)).1,
   ((c4_decode_failure_condition ('f' :: '\n' :: 'h' :: '\n' :: [])).2
      ('f' :: []) (('h' :: []) :: []) (by decide)).2⟩

/-- The external blob store (the Telegram attachment API treated as an
opaque store): an association of handles to stored content, in store order.
Successful stores append; there is no delete primitive. -/
structure BlobStore where
  blobs : List (List Char × List Char)
deriving DecidableEq

/-- `fetch(handle)`: content of the first stored blob with that handle. -/
def BlobStore.fetch (st : BlobStore) (h : List Char) : Option (List Char) :=
  (st.blobs.find? (fun b => b.1 == h)).map (fun b => b.2)

/-- A successful `store(bytes)` appends one blob. -/
def BlobStore.add (st : BlobStore) (h content : List Char) : BlobStore :=
  ⟨st.blobs ++ [(h, content)]⟩

/-- Outcome of `handleUpload` (src/main.go, lines 238-407), restricted to the
transfer-engine contract.  `direct` is the small-file reference (handle plus
filename in the download URL, line 297); `manifestRef` is the large-file
reference (the manifest blob's own handle, no filename, line 399);
`pieceStoreFailure i` is the HTTP 500 naming the failing piece index (line
370); `manifestStoreFailure` is the HTTP 500 of line 394;
`smallStoreFailure` the HTTP 500 of line 288. -/
inductive UploadOutcome where
  | direct (fileId : List Char) (filename : List Char)
  | manifestRef (fileId : List Char)
  | pieceStoreFailure (index : Nat)
  | manifestStoreFailure
  | smallStoreFailure
deriving DecidableEq

/-- Per-piece outcomes of the concurrent piece-store phase (src/main.go,
lines 335-365): the environment `env` fixes, for each piece index, whether
its store succeeds and which handle the store assigns; `results` is the
pre-sized slot array written at the piece's own index. -/
def storeResults (env : Nat → Option (List Char)) (n : Nat) :
    List (Option (List Char)) :=
  (List.range n).map env

/-- Blobs persisted by the successful piece stores, in piece order: every
goroutine runs to completion even when a sibling fails, so every successful
store leaves its blob behind. -/
def storedPiecesFrom (env : Nat → Option (List Char)) :
    Nat → List (List Char) → List (List Char × List Char)
  | _, [] => []
  | i, p :: rest =>
    match env i with
    | some h => (h, p) :: storedPiecesFrom env (i + 1) rest
    | none => storedPiecesFrom env (i + 1) rest

def storedPieces (env : Nat → Option (List Char))
    (pieces : List (List Char)) : List (List Char × List Char) :=
  storedPiecesFrom env 0 pieces

/-- The post-join error check (src/main.go, lines 368-374): the results
slots are scanned in index order and the first failed slot aborts the
upload, naming its index. -/
def firstFailure : List (Option (List Char)) → Option Nat
  | [] => none
  | none :: _ => some 0
  | some _ :: rest => (firstFailure rest).map (fun j => j + 1)

/-- `handleUpload` (src/main.go, lines 238-407) over the blob-store model.
`contentLength` is `r.ContentLength` (line 248): `-1` when the declared
size is absent.  The small-file branch (lines 268-308) requires a declared
size that is positive and at most `chunkSize`; it stores the whole stream
as one blob.  Otherwise the stream is split, the pieces are stored
concurrently (all stores run; results land in index-addressed slots), the
first failed slot aborts with its index, and on success the manifest is
built in piece order, stored, and its own handle returned with no filename. -/
def handleUpload (env : Nat → Option (List Char)) (contentLength : Int)
    (filename data : List Char) (st : BlobStore) :
    UploadOutcome × BlobStore :=
  if 0 < contentLength ∧ contentLength ≤ (chunkSize : Int) then
    match env 0 with
    | some h => (.direct h filename, st.add h data)
    | none => (.smallStoreFailure, st)
  else
    let pieces := splitChunks data
    let results := storeResults env pieces.length
    let st' : BlobStore := ⟨st.blobs ++ storedPieces env pieces⟩
    match firstFailure results with
    | some i => (.pieceStoreFailure i, st')
    | none =>
      let fileIDs := results.filterMap id
      match env pieces.length with
      | some mh => (.manifestRef mh, st'.add mh (encodeManifest filename fileIDs))
      | none => (.manifestStoreFailure, st')

/-- Outcome of `handleDownload` (src/main.go, lines 409-576): an HTTP
error, or a served response with its content type, whether an
attachment-disposition header was set, and the body bytes. -/
inductive DownloadOutcome where
  | missingFileId
  | fetchFailure
  | formatError
  | ok (contentType : List Char) (attachment : Bool) (body : List Char)
deriving DecidableEq

def DownloadOutcome.body? : DownloadOutcome → Option (List Char)
  | .ok _ _ b => some b
  | _ => none

/-- `isPreviewable` (src/main.go, lines 606-611). -/
def isPreviewable (contentType : List Char) : Bool :=
  ("image/").data.isPrefixOf contentType ||
  ("video/").data.isPrefixOf contentType ||
  ("audio/").data.isPrefixOf contentType ||
  contentType == ("application/pdf").data

/-- Go's `filepath.Ext` (src/main.go, line 433): the suffix of the last
path element starting at its final dot, or empty when it has no dot. -/
def extLoop : List Char → List Char → List Char
  | [], _ => []
  | c :: rest, acc =>
    if c = '/' then []
    else if c = '.' then '.' :: acc
    else extLoop rest (c :: acc)

def extOf (name : List Char) : List Char :=
  extLoop name.reverse []

/-- The content-type switch of the direct-download branch (src/main.go,
lines 433-442): `mime.TypeByExtension` is abstracted as `typeByExt`; an
empty lookup falls back to the generic binary type, and `image/gif` is
rewritten to `video/mp4`. -/
def resolveContentType (typeByExt : List Char → List Char)
    (filename : List Char) : List Char :=
  if typeByExt (extOf filename) = [] then ("application/octet-stream").data
  else if typeByExt (extOf filename) = ("image/gif").data then ("video/mp4").data
  else typeByExt (extOf filename)

/-- The concurrent piece-fetch phase of the manifest-download branch
(src/main.go, lines 509-558): every handle is fetched, any failure fails
the job. -/
def fetchParts (st : BlobStore) : List (List Char) → Option (List (List Char))
  | [] => some []
  | h :: rest =>
    match st.fetch h, fetchParts st rest with
    | some d, some ds => some (d :: ds)
    | _, _ => none

/-- `handleDownload` (src/main.go, lines 409-576).  A present `filename`
query parameter selects the direct branch (lines 419-451): one fetch,
content type from the extension, attachment disposition unless previewable.
Otherwise the blob is decoded as a manifest and all referenced pieces are
fetched and concatenated in manifest order with generic binary type and
forced attachment. -/
def handleDownload (typeByExt : List Char → List Char) (st : BlobStore)
    (fileId filename : List Char) : DownloadOutcome :=
  if fileId = [] then .missingFileId
  else if filename ≠ [] then
    match st.fetch fileId with
    | none => .fetchFailure
    | some body =>
      let ct := resolveContentType typeByExt filename
      .ok ct (!isPreviewable ct) body
  else
    match st.fetch fileId with
    | none => .fetchFailure
    | some manifestBytes =>
      match decodeManifest manifestBytes with
      | none => .formatError
      | some (_, handles) =>
        match fetchParts st handles with
        | none => .fetchFailure
        | some parts => .ok (("application/octet-stream").data) true parts.flatten

theorem firstFailure_eq_none (rs : List (Option (List Char)))
    (h : ∀ r ∈ rs, r.isSome = true) : firstFailure rs = none := by
  induction rs with
  | nil => rfl
  | cons r rest ih =>
    cases r with
    | none => exact absurd (h none (by simp)) (by simp)
    | some v =>
      unfold firstFailure
      rw [ih (fun x hx => h x (by simp [hx]))]
      rfl

theorem firstFailure_eq_some (rs : List (Option (List Char))) (i : Nat)
    (h : firstFailure rs = some i) : rs.get? i = some none := by
  induction rs generalizing i with
  | nil => simp [firstFailure] at h
  | cons r rest ih =>
    cases r with
    | none =>
      simp only [firstFailure, Option.some_inj] at h
      subst h
      rfl
    | some v =>
      simp only [firstFailure, Option.map_eq_some'] at h
      obtain ⟨j, hj, rfl⟩ := h
      exact ih j hj

theorem storeResults_length (env : Nat → Option (List Char)) (n : Nat) :
    (storeResults env n).length = n := by
  simp [storeResults]

theorem storeResults_get? (env : Nat → Option (List Char)) (n i : Nat)
    (h : i < n) : (storeResults env n).get? i = some (env i) := by
  unfold storeResults
  rw [List.get?_map, List.get?_range h]
  rfl

theorem mem_storedPiecesFrom (env : Nat → Option (List Char))
    (ps : List (List Char)) :
    ∀ i k p h, ps.get? k = some p → env (i + k) = some h →
      (h, p) ∈ storedPiecesFrom env i ps := by
  induction ps with
  | nil =>
    intro i k p h hk
    simp at hk
  | cons q rest ih =>
    intro i k p h hk he
    cases k with
    | zero =>
      simp only [List.get?_cons_zero, Option.some_inj] at hk
      subst hk
      rw [Nat.add_zero] at he
      unfold storedPiecesFrom
      rw [he]
      simp
    | succ k' =>
      have hrec := ih (i + 1) k' p h hk
        (by rw [show i + 1 + k' = i + (k' + 1) from by omega]; exact he)
      unfold storedPiecesFrom
      cases henv : env i with
      | some h0 =>
        simp only [henv]
        exact List.mem_cons_of_mem _ hrec
      | none =>
        simp only [henv]
        exact hrec

/-- C5: a declared size that is present, positive and at most `C` selects
the small-file path, which stores the whole stream as exactly one blob and
returns a direct reference (handle plus filename) with no manifest; a
declared size that is absent (negative), zero or greater than `C` selects
the chunked path, which on success returns the manifest's own handle with
no filename attached. -/
theorem c5_path_selection (env : Nat → Option (List Char)) (cl : Int)
    (filename data : List Char) (st : BlobStore) :
    (∀ h, 0 < cl → cl ≤ (chunkSize : Int) → env 0 = some h →
      handleUpload env cl filename data st
        = (.direct h filename, ⟨st.blobs ++ [(h, data)]⟩))
    ∧ (∀ mh, ¬ (0 < cl ∧ cl ≤ (chunkSize : Int)) →
        (∀ i, i < (splitChunks data).length → (env i).isSome = true) →
        env (splitChunks data).length = some mh →
        (handleUpload env cl filename data st).1 = .manifestRef mh) := by
  constructor
  · intro h h1 h2 h3
    unfold handleUpload
    rw [if_pos ⟨h1, h2⟩, h3]
    rfl
  · intro mh hneg hall hmh
    have hff : firstFailure (storeResults env (splitChunks data).length) = none := by
      apply firstFailure_eq_none
      intro r hr
      obtain ⟨i, hi, rfl⟩ := List.mem_map.mp hr
      exact hall i (List.mem_range.mp hi)
    unfold handleUpload
    rw [if_neg hneg]
    simp only [hff, hmh]

theorem c5_path_selection_witness :
    (0 < (1 : Int) ∧ (1 : Int) ≤ (chunkSize : Int)
      ∧ handleUpload (fun _ => some ('h' :: [])) 1 ('f' :: []) ('a' :: []) ⟨[]⟩
          = (.direct ('h' :: []) ('f' :: []),
             ⟨[(('h' :: []), ('a' :: []))]⟩))
    ∧ (¬ (0 < (0 : Int) ∧ (0 : Int) ≤ (chunkSize : Int))
      ∧ (handleUpload (fun _ => some ('h' :: [])) 0 ('f' :: [])
            ('a' :: 'b' :: []) ⟨[]⟩).1 = .manifestRef ('h' :: [])) :=
  ⟨⟨by decide, by decide,
    (c5_path_selection (fun _ => some ('h' :: [])) 1 ('f' :: []) ('a' :: []) ⟨[]⟩).1
      ('h' :: []) (by decide) (by decide) rfl⟩,
   ⟨by decide,
    (c5_path_selection (fun _ => some ('h' :: [])) 0 ('f' :: [])
        ('a' :: 'b' :: []) ⟨[]⟩).2 ('h' :: []) (by decide)
      (by rw [splitChunks_small ('a' :: 'b' :: []) (by decide) (by decide)]
          decide)
      rfl⟩⟩

/-- C6: when at least one piece store of a chunked upload fails, the upload
aborts with a `pieceStoreFailure` naming the first failing index (a failing
piece, since its slot is empty), no manifest is stored (the final store is
the old store extended by exactly the successfully stored pieces), no
transfer reference is returned, and every piece whose store succeeded is
still present in the store (nothing is deleted). -/
theorem c6_piece_store_failure (env : Nat → Option (List Char)) (cl : Int)
    (filename data : List Char) (st : BlobStore) (i₀ : Nat)
    (hbig : ¬ (0 < cl ∧ cl ≤ (chunkSize : Int)))
    (hfail : firstFailure (storeResults env (splitChunks data).length)
        = some i₀) :
    handleUpload env cl filename data st
      = (.pieceStoreFailure i₀,
         ⟨st.blobs ++ storedPieces env (splitChunks data)⟩)
    ∧ env i₀ = none ∧ i₀ < (splitChunks data).length
    ∧ (∀ i h p, (splitChunks data).get? i = some p → env i = some h →
        (h, p) ∈ st.blobs ++ storedPieces env (splitChunks data)) := by
  have hget := firstFailure_eq_some _ i₀ hfail
  have hlt : i₀ < (splitChunks data).length := by
    by_contra hge
    rw [List.get?_eq_none.mpr (by rw [storeResults_length]; omega)] at hget
    exact absurd hget (by simp)
  have henv : env i₀ = none := by
    rw [storeResults_get? env _ i₀ hlt] at hget
    simpa using hget
  refine ⟨?_, henv, hlt, ?_⟩
  · unfold handleUpload
    rw [if_neg hbig]
    simp only [hfail]
  · intro i h p hp he
    apply List.mem_append_right
    exact mem_storedPiecesFrom env (splitChunks data) 0 i p h hp
      (by rw [Nat.zero_add]; exact he)

theorem c6_piece_store_failure_witness :
    (¬ (0 < (0 : Int) ∧ (0 : Int) ≤ (chunkSize : Int)))
    ∧ firstFailure (storeResults (fun _ => none)
        (splitChunks ('a' :: 'b' :: [])).length) = some 0
    ∧ handleUpload (fun _ => none) 0 ('f' :: []) ('a' :: 'b' :: []) ⟨[]⟩
        = (.pieceStoreFailure 0,
           ⟨[] ++ storedPieces (fun _ => none) (splitChunks ('a' :: 'b' :: []))⟩) :=
  ⟨by decide,
   by rw [splitChunks_small ('a' :: 'b' :: []) (by decide) (by decide)]
      decide,
   (c6_piece_store_failure (fun _ => none) 0 ('f' :: []) ('a' :: 'b' :: [])
      ⟨[]⟩ 0 (by decide)
      (by rw [splitChunks_small ('a' :: 'b' :: []) (by decide) (by decide)]
          decide)).1⟩

theorem fetch_extend (a ext : List (List Char × List Char)) (q : List Char) :
    BlobStore.fetch ⟨a ++ ext⟩ q
      = (BlobStore.fetch ⟨a⟩ q).or (BlobStore.fetch ⟨ext⟩ q) := by
  unfold BlobStore.fetch
  rw [List.find?_append]
  cases List.find? (fun b => b.1 == q) a <;> simp

theorem fetch_mk_blobs (st : BlobStore) :
    BlobStore.fetch ⟨st.blobs⟩ = st.fetch :=
  rfl

theorem decode_single_line (t : List Char) (h : lineToken t = true) :
    decodeManifest (t ++ ['\n']) = none := by
  obtain ⟨hne, hnl, -, -⟩ := lineToken_spec t h
  have htrim : trimSpace (t ++ ['\n']) = t := by
    rw [trimSpace_append_spaces t ['\n']
      (by intro c hc; simp at hc; simp [hc, isSpaceChar])]
    exact trimSpace_of_lineToken t h
  unfold decodeManifest cleanLines
  rw [htrim, splitOnNl_of_no_nl t hnl]
  simp only [List.map_cons, List.map_nil, trimSpace_of_lineToken t h]
  rw [List.filter_cons_of_pos (by simpa [List.isEmpty_iff] using hne),
    List.filter_nil]

/-- C10 (amended): a zero-byte stream whose declared size is absent or zero
takes the chunked path; the splitter emits zero pieces, the upload still
succeeds when the manifest store succeeds, the stored manifest is the
filename line alone (no handles), and a manifest reference is returned;
when the filename is a single-line token (and the manifest handle is
non-empty), downloading that reference from any store holding that
manifest fails with the `FormatError`, so the reference is undownloadable.
For a filename containing a line break the download does not end in a
`FormatError`: see `c10_zero_byte_counterexample`. -/
theorem c10_zero_byte_upload (env : Nat → Option (List Char)) (cl : Int)
    (filename : List Char) (st : BlobStore) (mh : List Char)
    (hsz : ¬ (0 < cl ∧ cl ≤ (chunkSize : Int)))
    (hname : lineToken filename = true)
    (hmne : mh ≠ [])
    (hm : env 0 = some mh) :
    splitChunks [] = []
    ∧ encodeManifest filename [] = filename ++ ['\n']
    ∧ handleUpload env cl filename [] st
        = (.manifestRef mh, st.add mh (encodeManifest filename []))
    ∧ (∀ te st2, st2.fetch mh = some (encodeManifest filename []) →
        handleDownload te st2 mh [] = .formatError) := by
  refine ⟨splitChunks_nil, by simp [encodeManifest], ?_, ?_⟩
  · unfold handleUpload
    rw [if_neg hsz]
    simp only [splitChunks_nil, storeResults, List.range_zero, List.map_nil,
      firstFailure, List.length_nil, hm, List.filterMap_nil, storedPieces,
      storedPiecesFrom, List.append_nil]
  · intro te st2 hfetch
    have hd : decodeManifest (encodeManifest filename []) = none := by
      rw [show encodeManifest filename [] = filename ++ ['\n'] by
        simp [encodeManifest]]
      exact decode_single_line filename hname
    unfold handleDownload
    rw [if_neg hmne, if_neg (by simp)]
    simp only [hfetch, hd]

theorem c10_zero_byte_upload_witness :
    (¬ (0 < (0 : Int) ∧ (0 : Int) ≤ (chunkSize : Int)))
    ∧ lineToken ('f' :: []) = true
    ∧ ('h' :: []) ≠ ([] : List Char)
    ∧ handleUpload (fun _ => some ('h' :: [])) 0 ('f' :: []) [] ⟨[]⟩
        = (.manifestRef ('h' :: []),
           BlobStore.add ⟨[]⟩ ('h' :: []) (encodeManifest ('f' :: []) []))
    ∧ handleDownload (fun _ => []) ⟨[(('h' :: []), ('f' :: '\n' :: []))]⟩
        ('h' :: []) [] = .formatError :=
  ⟨by decide, by decide, by decide,
   (c10_zero_byte_upload (fun _ => some ('h' :: [])) 0 ('f' :: []) ⟨[]⟩
      ('h' :: []) (by decide) (by decide) (by decide) rfl).2.2.1,
   (c10_zero_byte_upload (fun _ => some ('h' :: [])) 0 ('f' :: []) ⟨[]⟩
      ('h' :: []) (by decide) (by decide) (by decide) rfl).2.2.2
     (fun _ => []) ⟨[(('h' :: []), ('f' :: '\n' :: []))]⟩ (by decide)⟩

/-- C10 counterexample: for the filename `a`-newline-`b`, the zero-byte
chunked upload stores the manifest `"a\nb\n"`, which decodes successfully
(two clean lines: filename `a` plus the bogus handle `b`), so the download
of the returned reference proceeds to fetch handle `b` and ends in a fetch
failure, not the `FormatError` — the unrestricted claim that every
zero-byte reference download fails with a `FormatError` is false. -/
theorem c10_zero_byte_counterexample :
    handleUpload (fun _ => some ('h' :: [])) 0 ('a' :: '\n' :: 'b' :: []) []
        ⟨[]⟩
      = (.manifestRef ('h' :: []),
         ⟨[(('h' :: []), ('a' :: '\n' :: 'b' :: '\n' :: []))]⟩)
    ∧ decodeManifest ('a' :: '\n' :: 'b' :: '\n' :: [])
        = some (('a' :: []), ('b' :: []) :: [])
    ∧ handleDownload (fun _ => [])
        ⟨[(('h' :: []), ('a' :: '\n' :: 'b' :: '\n' :: []))]⟩ ('h' :: []) []
      = .fetchFailure
    ∧ DownloadOutcome.fetchFailure ≠ DownloadOutcome.formatError := by
  have hup : handleUpload (fun _ => some ('h' :: [])) 0
        ('a' :: '\n' :: 'b' :: []) [] ⟨[]⟩
      = (.manifestRef ('h' :: []),
         BlobStore.add ⟨[]⟩ ('h' :: [])
           (encodeManifest ('a' :: '\n' :: 'b' :: []) [])) := by
    unfold handleUpload
    rw [if_neg (by decide)]
    simp only [splitChunks_nil, storeResults, List.range_zero, List.map_nil,
      firstFailure, List.length_nil, List.filterMap_nil, storedPieces,
      storedPiecesFrom, List.append_nil]
  refine ⟨?_, by decide, by decide, by decide⟩
  rw [hup]
  exact rfl

theorem storedPiecesFrom_snd (H : Nat → List Char) (ps : List (List Char)) :
    ∀ i, (storedPiecesFrom (fun j => some (H j)) i ps).map Prod.snd = ps := by
  induction ps with
  | nil => intro i; rfl
  | cons p rest ih =>
    intro i
    simp only [storedPiecesFrom, List.map_cons, ih (i + 1)]

theorem storedPiecesFrom_fst (H : Nat → List Char) (ps : List (List Char)) :
    ∀ i, (storedPiecesFrom (fun j => some (H j)) i ps).map Prod.fst
      = (List.range' i ps.length).map H := by
  induction ps with
  | nil => intro i; rfl
  | cons p rest ih =>
    intro i
    simp only [storedPiecesFrom, List.map_cons, List.length_cons,
      List.range'_succ, ih (i + 1)]

theorem find?_eq_some_of_mem_nodup (pairs : List (List Char × List Char))
    (q : List Char × List Char)
    (hnd : (pairs.map Prod.fst).Nodup) (hq : q ∈ pairs) :
    pairs.find? (fun b => b.1 == q.1) = some q := by
  induction pairs with
  | nil => simp at hq
  | cons p rest ih =>
    rw [List.map_cons, List.nodup_cons] at hnd
    rcases List.mem_cons.mp hq with h | h
    · subst h
      exact List.find?_cons_of_pos rest (by simp)
    · have hp1 : ¬ (p.1 == q.1) = true := by
        simp only [beq_iff_eq]
        intro he
        exact hnd.1 (he ▸ List.mem_map_of_mem Prod.fst h)
      rw [List.find?_cons_of_neg rest hp1]
      exact ih hnd.2 h

theorem fetchParts_of_forall (st : BlobStore)
    (pairs : List (List Char × List Char))
    (hall : ∀ q ∈ pairs, st.fetch q.1 = some q.2) :
    fetchParts st (pairs.map Prod.fst) = some (pairs.map Prod.snd) := by
  induction pairs with
  | nil => rfl
  | cons q rest ih =>
    simp only [List.map_cons, fetchParts]
    rw [hall q (by simp), ih (fun x hx => hall x (by simp [hx]))]

theorem storeResults_filterMap (H : Nat → List Char) (n : Nat) :
    (storeResults (fun i => some (H i)) n).filterMap id = (List.range n).map H := by
  unfold storeResults
  rw [List.filterMap_map]
  have : (id ∘ fun i => some (H i)) = some ∘ H := rfl
  rw [this, List.filterMap_eq_map]

theorem manifest_download_roundtrip (H : Nat → List Char)
    (typeByExt : List Char → List Char) (filename data : List Char)
    (st : BlobStore)
    (hinj : ∀ i j, H i = H j → i = j)
    (htok : ∀ i, lineToken (H i) = true)
    (hfresh : ∀ i, st.fetch (H i) = none)
    (hname : lineToken filename = true)
    (hdata : data ≠ []) :
    (handleDownload typeByExt
        ⟨(st.blobs ++ storedPieces (fun i => some (H i)) (splitChunks data))
          ++ [(H (splitChunks data).length,
               encodeManifest filename
                 ((List.range (splitChunks data).length).map H))]⟩
        (H (splitChunks data).length) []).body? = some data := by
  have hHne : ∀ i, H i ≠ [] := fun i => (lineToken_spec _ (htok i)).1
  set pieces := splitChunks data with hpieces
  set n := pieces.length with hn
  set pairs := storedPieces (fun i => some (H i)) pieces with hpairs
  set manifest := encodeManifest filename ((List.range n).map H) with hman
  have hpne : pieces ≠ [] := by
    rw [hpieces]
    intro he
    exact hdata ((splitChunks_eq_nil_iff data).mp he)
  have hn0 : n ≠ 0 := by
    rw [hn]
    simpa using hpne
  have hfst : pairs.map Prod.fst = (List.range' 0 n).map H := by
    rw [hpairs, hn]
    exact storedPiecesFrom_fst H pieces 0
  have hsnd : pairs.map Prod.snd = pieces := by
    rw [hpairs]
    exact storedPiecesFrom_snd H pieces 0
  have hnodup : (pairs.map Prod.fst).Nodup := by
    rw [hfst]
    exact List.Nodup.map (fun a b hab => hinj a b hab) (List.nodup_range' 0 n)
  have hmem_j : ∀ q ∈ pairs, ∃ j, j < n ∧ q.1 = H j := by
    intro q hq
    have : q.1 ∈ pairs.map Prod.fst := List.mem_map_of_mem Prod.fst hq
    rw [hfst] at this
    obtain ⟨j, hj, hje⟩ := List.mem_map.mp this
    exact ⟨j, by simpa using (List.mem_range'_1.mp hj).2, hje.symm⟩
  have hfq : ∀ q ∈ pairs,
      BlobStore.fetch ⟨(st.blobs ++ pairs) ++ [(H n, manifest)]⟩ q.1
        = some q.2 := by
    intro q hq
    obtain ⟨j, hjn, hq1⟩ := hmem_j q hq
    have h1 : st.fetch q.1 = none := by
      rw [hq1]
      exact hfresh j
    have h2 : BlobStore.fetch ⟨pairs⟩ q.1 = some q.2 := by
      unfold BlobStore.fetch
      rw [find?_eq_some_of_mem_nodup pairs q hnodup hq]
      rfl
    rw [fetch_extend, fetch_extend, fetch_mk_blobs, h1, h2]
    rfl
  have hfm : BlobStore.fetch ⟨(st.blobs ++ pairs) ++ [(H n, manifest)]⟩ (H n)
      = some manifest := by
    have h2 : BlobStore.fetch ⟨pairs⟩ (H n) = none := by
      unfold BlobStore.fetch
      rw [List.find?_eq_none.mpr]
      · rfl
      · intro b hb
        simp only [beq_iff_eq]
        intro he
        obtain ⟨j, hjn, hbj⟩ := hmem_j b hb
        exact absurd (hinj j n (hbj.symm.trans he)) (by omega)
    have h3 : BlobStore.fetch ⟨[(H n, manifest)]⟩ (H n) = some manifest := by
      simp [BlobStore.fetch]
    rw [fetch_extend, fetch_extend, fetch_mk_blobs, hfresh n, h2, h3]
    rfl
  have hdec : decodeManifest manifest = some (filename, (List.range n).map H) := by
    have hrne : (List.range n).map H ≠ [] := by
      intro he
      rw [List.map_eq_nil, List.range_eq_nil] at he
      exact hn0 he
    have := decode_encode filename ((List.range n).map H) [] hname hrne
      (by intro h hmem
          obtain ⟨j, -, rfl⟩ := List.mem_map.mp hmem
          exact htok j)
      (by intro c hc; simp at hc)
    rw [hman]
    simpa using this
  have hfp : fetchParts
      ⟨(st.blobs ++ pairs) ++ [(H n, manifest)]⟩ ((List.range n).map H)
        = some pieces := by
    have heq : (List.range n).map H = pairs.map Prod.fst := by
      rw [hfst, List.range_eq_range']
    rw [heq, fetchParts_of_forall _ pairs hfq, hsnd]
  unfold handleDownload
  rw [if_neg (hHne n), if_neg (by simp)]
  simp only [hfm, hdec, hfp, DownloadOutcome.body?, Option.some_inj]
  rw [hpieces]
  exact splitChunks_join data

/-- C1 (amended): round-trip law `download (upload f) = f`.  Assuming the
blob store succeeds on every store and assigns pairwise-distinct
single-line-token handles not already present in the store, and that the
file is non-empty with a single-line-token name, downloading the transfer
reference returned by the upload reproduces the input bytes exactly — on
the small-file path (declared size positive and at most `C`, direct
reference with filename) and on the chunked path (declared size absent,
zero or above `C`; split, store pieces, store manifest, fetch pieces,
reassemble), which covers the boundary sizes `C-1`, `C`, `C+1` and `2C`.
The zero-byte file is excluded: see `c1_roundtrip_counterexample`. -/
theorem c1_roundtrip_amended (H : Nat → List Char)
    (typeByExt : List Char → List Char) (cl : Int)
    (filename data : List Char) (st : BlobStore)
    (hinj : ∀ i j, H i = H j → i = j)
    (htok : ∀ i, lineToken (H i) = true)
    (hfresh : ∀ i, st.fetch (H i) = none)
    (hname : lineToken filename = true)
    (hdata : data ≠ []) :
    ((0 < cl ∧ cl ≤ (chunkSize : Int)) →
      (handleUpload (fun i => some (H i)) cl filename data st).1
          = .direct (H 0) filename
      ∧ (handleDownload typeByExt
          (handleUpload (fun i => some (H i)) cl filename data st).2
          (H 0) filename).body? = some data)
    ∧ (¬ (0 < cl ∧ cl ≤ (chunkSize : Int)) →
      (handleUpload (fun i => some (H i)) cl filename data st).1
          = .manifestRef (H (splitChunks data).length)
      ∧ (handleDownload typeByExt
          (handleUpload (fun i => some (H i)) cl filename data st).2
          (H (splitChunks data).length) []).body? = some data) := by
  have hHne : ∀ i, H i ≠ [] := fun i => (lineToken_spec _ (htok i)).1
  have hfname : filename ≠ [] := (lineToken_spec _ hname).1
  constructor
  · intro hcl
    have hup : handleUpload (fun i => some (H i)) cl filename data st
        = (.direct (H 0) filename, st.add (H 0) data) := by
      unfold handleUpload
      rw [if_pos hcl]
    have hfe : (st.add (H 0) data).fetch (H 0) = some data := by
      unfold BlobStore.add
      rw [fetch_extend, fetch_mk_blobs, hfresh 0]
      simp [BlobStore.fetch]
    constructor
    · rw [hup]
    · rw [hup]
      show (handleDownload typeByExt (st.add (H 0) data)
        (H 0) filename).body? = some data
      unfold handleDownload
      rw [if_neg (hHne 0), if_pos hfname]
      simp only [hfe]
      rfl
  · intro hncl
    have hff : firstFailure (storeResults (fun i => some (H i))
        (splitChunks data).length) = none := by
      apply firstFailure_eq_none
      intro r hr
      obtain ⟨i, hi, rfl⟩ := List.mem_map.mp hr
      rfl
    have hup : handleUpload (fun i => some (H i)) cl filename data st
        = (.manifestRef (H (splitChunks data).length),
           ⟨(st.blobs ++ storedPieces (fun i => some (H i)) (splitChunks data))
             ++ [(H (splitChunks data).length,
                  encodeManifest filename
                    ((List.range (splitChunks data).length).map H))]⟩) := by
      unfold handleUpload
      rw [if_neg hncl]
      simp only [hff, storeResults_filterMap H]
      rfl
    constructor
    · rw [hup]
    · rw [hup]
      exact manifest_download_roundtrip H typeByExt filename data st
        hinj htok hfresh hname hdata

/-- C1 counterexample: the zero-byte file.  With declared size `0` it takes
the chunked path; the upload succeeds and hands out a manifest reference,
but downloading that reference yields the `FormatError`, not the empty byte
sequence, so `download (upload f) = f` fails for the empty file. -/
theorem c1_roundtrip_counterexample :
    (handleUpload (fun i => some (List.replicate (i + 1) 'h')) 0 ('f' :: [])
        [] ⟨[]⟩).1 = .manifestRef ('h' :: [])
    ∧ (handleDownload (fun _ => [])
        (handleUpload (fun i => some (List.replicate (i + 1) 'h')) 0
          ('f' :: []) [] ⟨[]⟩).2 ('h' :: []) []).body? ≠ some [] := by
  have hup : handleUpload (fun i => some (List.replicate (i + 1) 'h')) 0
        ('f' :: []) [] ⟨[]⟩
      = (.manifestRef ('h' :: []),
         BlobStore.add ⟨[]⟩ ('h' :: []) (encodeManifest ('f' :: []) [])) := by
    unfold handleUpload
    rw [if_neg (by decide)]
    simp only [splitChunks_nil, storeResults, List.range_zero, List.map_nil,
      firstFailure, List.length_nil, List.filterMap_nil, storedPieces,
      storedPiecesFrom, List.append_nil]
    rfl
  rw [hup]
  exact ⟨rfl, by decide⟩

theorem lineToken_of_all_h (t : List Char) (hne : t ≠ [])
    (hall : ∀ c ∈ t, c = 'h') : lineToken t = true := by
  unfold lineToken
  simp only [Bool.and_eq_true, Bool.not_eq_true']
  refine ⟨⟨⟨?_, ?_⟩, ?_⟩, ?_⟩
  · simpa [List.isEmpty_iff] using hne
  · rw [List.all_eq_true]
    intro x hx
    rw [hall x hx]
    decide
  · cases t with
    | nil => exact absurd rfl hne
    | cons c rest =>
      have hc := hall c (by simp)
      subst hc
      show (!isSpaceChar 'h') = true
      decide
  · cases hr : t.reverse with
    | nil => exact absurd (List.reverse_eq_nil_iff.mp hr) hne
    | cons d ds =>
      have hd : d ∈ t := by
        have : d ∈ t.reverse := by rw [hr]; simp
        simpa using this
      rw [hall d hd]
      show (!isSpaceChar 'h') = true
      decide

theorem lineToken_replicate_h (i : Nat) :
    lineToken (List.replicate (i + 1) 'h') = true :=
  lineToken_of_all_h _ (by simp [List.replicate_succ])
    (fun c hc => (List.mem_replicate.mp hc).2)

theorem c1_roundtrip_amended_witness :
    ((∀ i j : Nat, List.replicate (i + 1) 'h' = List.replicate (j + 1) 'h'
        → i = j)
      ∧ (∀ i : Nat, lineToken (List.replicate (i + 1) 'h') = true)
      ∧ (∀ i : Nat, BlobStore.fetch ⟨[]⟩ (List.replicate (i + 1) 'h') = none)
      ∧ lineToken ('f' :: []) = true
      ∧ ('a' :: 'b' :: []) ≠ ([] : List Char)
      ∧ ¬ (0 < (0 : Int) ∧ (0 : Int) ≤ (chunkSize : Int)))
    ∧ ((handleUpload (fun i => some (List.replicate (i + 1) 'h')) 0
          ('f' :: []) ('a' :: 'b' :: []) ⟨[]⟩).1
        = .manifestRef
            (List.replicate ((splitChunks ('a' :: 'b' :: [])).length + 1) 'h')
      ∧ (handleDownload (fun _ => [])
          (handleUpload (fun i => some (List.replicate (i + 1) 'h')) 0
            ('f' :: []) ('a' :: 'b' :: []) ⟨[]⟩).2
          (List.replicate ((splitChunks ('a' :: 'b' :: [])).length + 1) 'h')
          []).body? = some ('a' :: 'b' :: [])) :=
  ⟨⟨fun i j h => by
      have := congrArg List.length h
      simp at this
      omega,
    lineToken_replicate_h,
    fun i => rfl,
    by decide, by decide, by decide⟩,
   (c1_roundtrip_amended (fun i => List.replicate (i + 1) 'h') (fun _ => [])
      0 ('f' :: []) ('a' :: 'b' :: []) ⟨[]⟩
      (fun i j h => by
        have := congrArg List.length h
        simp at this
        omega)
      lineToken_replicate_h (fun i => rfl) (by decide) (by decide)).2
     (by decide)⟩

/-- C8 (amended): on a successful direct-reference download the content
type is derived from the filename's extension with two rewrites the source
applies (src/main.go, lines 433-442): an unknown extension falls back to
`application/octet-stream`, and a derived `image/gif` is rewritten to
`video/mp4`; the attachment-disposition header is set if and only if the
final content type is not previewable.  The unrestricted claim — the
content type always equals the derived MIME type — is refuted by
`c8_content_type_counterexample`. -/
theorem c8_direct_download_headers (typeByExt : List Char → List Char)
    (st : BlobStore) (fileId filename body : List Char)
    (hid : fileId ≠ []) (hname : filename ≠ [])
    (hfetch : st.fetch fileId = some body) :
    ∃ ct att,
      handleDownload typeByExt st fileId filename = .ok ct att body
      ∧ (typeByExt (extOf filename) ≠ [] →
          typeByExt (extOf filename) ≠ ("image/gif").data →
          ct = typeByExt (extOf filename))
      ∧ (typeByExt (extOf filename) = [] →
          ct = ("application/octet-stream").data)
      ∧ (typeByExt (extOf filename) = ("image/gif").data →
          ct = ("video/mp4").data)
      ∧ (att = true ↔ isPreviewable ct = false) := by
  refine ⟨resolveContentType typeByExt filename,
    !isPreviewable (resolveContentType typeByExt filename),
    ?_, ?_, ?_, ?_, by simp⟩
  · unfold handleDownload
    rw [if_neg hid, if_pos hname]
    simp only [hfetch]
  · intro h1 h2
    unfold resolveContentType
    rw [if_neg h1, if_neg h2]
  · intro h1
    unfold resolveContentType
    rw [if_pos h1]
  · intro h1
    unfold resolveContentType
    rw [if_neg (by rw [h1]; decide), if_pos h1]

theorem c8_direct_download_headers_witness :
    (('i' :: []) ≠ ([] : List Char)
      ∧ ("a.txt").data ≠ ([] : List Char)
      ∧ BlobStore.fetch ⟨[(('i' :: []), ('b' :: []))]⟩ ('i' :: [])
          = some ('b' :: []))
    ∧ (∃ ct att,
        handleDownload
            (fun e => if e = (".txt").data then ("text/plain").data else [])
            ⟨[(('i' :: []), ('b' :: []))]⟩ ('i' :: []) ("a.txt").data
          = .ok ct att ('b' :: [])
        ∧ ((fun e => if e = (".txt").data then ("text/plain").data else [])
              (extOf ("a.txt").data) ≠ [] →
            (fun e => if e = (".txt").data then ("text/plain").data else [])
              (extOf ("a.txt").data) ≠ ("image/gif").data →
            ct = (fun e => if e = (".txt").data then ("text/plain").data else [])
              (extOf ("a.txt").data))
        ∧ ((fun e => if e = (".txt").data then ("text/plain").data else [])
              (extOf ("a.txt").data) = [] →
            ct = ("application/octet-stream").data)
        ∧ ((fun e => if e = (".txt").data then ("text/plain").data else [])
              (extOf ("a.txt").data) = ("image/gif").data →
            ct = ("video/mp4").data)
        ∧ (att = true ↔ isPreviewable ct = false)) :=
  ⟨⟨by decide, by decide, by decide⟩,
   c8_direct_download_headers
     (fun e => if e = (".txt").data then ("text/plain").data else [])
     ⟨[(('i' :: []), ('b' :: []))]⟩ ('i' :: []) ("a.txt").data ('b' :: [])
     (by decide) (by decide) (by decide)⟩

/-- C8 counterexample: for the filename `a.gif` with the derived MIME type
`image/gif`, the response content type is `video/mp4`, not the derived
type, refuting the claim that the content type always equals the MIME type
derived from the extension (with only the octet-stream fallback). -/
theorem c8_content_type_counterexample :
    handleDownload
        (fun e => if e = (".gif").data then ("image/gif").data else [])
        ⟨[(('i' :: []), ('b' :: []))]⟩ ('i' :: []) ("a.gif").data
      = .ok (("video/mp4").data) false ('b' :: [])
    ∧ (fun e => if e = (".gif").data then ("image/gif").data else [])
        (extOf ("a.gif").data) = ("image/gif").data
    ∧ ("video/mp4").data ≠ ("image/gif").data := by
  refine ⟨by decide, by decide, by decide⟩

/-- The index-addressed slot-write phase of the manifest download
(src/main.go, lines 509-558): each concurrent fetch task writes its result
into `partData` at its own manifest index (`partData[index] = data`, line
554); `order` is the order in which the tasks happen to complete. -/
def writeSlots (f : Nat → List Char) (order : List Nat)
    (slots : List (Option (List Char))) : List (Option (List Char)) :=
  order.foldl (fun acc i => acc.set i (some (f i))) slots

theorem writeSlots_length (f : Nat → List Char) (order : List Nat) :
    ∀ slots, (writeSlots f order slots).length = slots.length := by
  induction order with
  | nil => intro slots; rfl
  | cons i rest ih =>
    intro slots
    unfold writeSlots at ih ⊢
    simp only [List.foldl_cons]
    rw [ih (slots.set i (some (f i))), List.length_set]

theorem writeSlots_getElem?_not_mem (f : Nat → List Char) (order : List Nat) :
    ∀ slots j, j ∉ order →
      (writeSlots f order slots)[j]? = slots[j]? := by
  induction order with
  | nil => intro slots j _; rfl
  | cons i rest ih =>
    intro slots j hj
    unfold writeSlots at ih ⊢
    simp only [List.foldl_cons]
    rw [ih (slots.set i (some (f i))) j (fun hm => hj (by simp [hm])),
      List.getElem?_set_ne (fun he => hj (by simp [he]))]

theorem writeSlots_cons (f : Nat → List Char) (i : Nat) (rest : List Nat)
    (slots : List (Option (List Char))) :
    writeSlots f (i :: rest) slots
      = writeSlots f rest (slots.set i (some (f i))) := rfl

theorem writeSlots_getElem?_mem (f : Nat → List Char) (order : List Nat) :
    ∀ slots j, j ∈ order → order.Nodup → j < slots.length →
      (writeSlots f order slots)[j]? = some (some (f j)) := by
  induction order with
  | nil => intro slots j hj; simp at hj
  | cons i rest ih =>
    intro slots j hj hnd hlen
    rw [List.nodup_cons] at hnd
    rw [writeSlots_cons]
    rcases List.mem_cons.mp hj with h | h
    · subst h
      rw [writeSlots_getElem?_not_mem f rest (slots.set j (some (f j))) j hnd.1,
        List.getElem?_set_self hlen]
    · exact ih (slots.set i (some (f i))) j h hnd.2
        (by rw [List.length_set]; exact hlen)

theorem writeSlots_perm (f : Nat → List Char) (order : List Nat) (n : Nat)
    (hperm : order.Perm (List.range n)) :
    writeSlots f order (List.replicate n none)
      = (List.range n).map (fun i => some (f i)) := by
  apply List.ext_getElem?
  intro j
  by_cases hj : j < n
  · rw [writeSlots_getElem?_mem f order (List.replicate n none) j
      (hperm.mem_iff.mpr (List.mem_range.mpr hj))
      (hperm.nodup_iff.mpr (List.nodup_range n))
      (by rw [List.length_replicate]; exact hj)]
    rw [List.getElem?_map, List.getElem?_range hj]
    rfl
  · rw [List.getElem?_eq_none, List.getElem?_eq_none]
    · rw [List.length_map, List.length_range]
      omega
    · rw [writeSlots_length, List.length_replicate]
      omega

theorem fetchParts_spec (st : BlobStore) (hs : List (List Char)) :
    ∀ ps, fetchParts st hs = some ps →
      ps.length = hs.length
      ∧ ∀ i, i < hs.length →
          st.fetch (hs.getD i []) = some (ps.getD i []) := by
  induction hs with
  | nil =>
    intro ps h
    simp only [fetchParts, Option.some_inj] at h
    subst h
    exact ⟨rfl, by intro i hi; simp at hi⟩
  | cons x rest ih =>
    intro ps h
    unfold fetchParts at h
    cases hfx : st.fetch x with
    | none => rw [hfx] at h; simp at h
    | some d =>
      rw [hfx] at h
      cases hfr : fetchParts st rest with
      | none => rw [hfr] at h; simp at h
      | some ds =>
        rw [hfr] at h
        simp only [Option.some_inj] at h
        subst h
        obtain ⟨hl, hall⟩ := ih ds hfr
        refine ⟨by simp [hl], ?_⟩
        intro i hi
        cases i with
        | zero => simpa using hfx
        | succ i' =>
          simpa using hall i' (by simpa using hi)

theorem map_getD_range (l : List (List Char)) :
    (List.range l.length).map (fun i => l.getD i []) = l := by
  induction l with
  | nil => rfl
  | cons x xs ih =>
    rw [List.length_cons, List.range_succ_eq_map, List.map_cons, List.map_map]
    rw [show ((fun i => (x :: xs).getD i []) ∘ Nat.succ)
        = (fun i => xs.getD i []) from rfl, ih]
    rfl

/-- C7: reassembly ordering.  Whatever the completion order of the
concurrent piece fetches (any permutation of the manifest indices), the
slot array after all index-addressed writes equals the fetched pieces in
manifest order, and the bytes the manifest download serves are the
concatenation of the pieces in exactly the order their handles appear in
the manifest. -/
theorem c7_reassembly_order (typeByExt : List Char → List Char)
    (st : BlobStore) (fileId manifestBytes name : List Char)
    (handles parts : List (List Char)) (order : List Nat)
    (hid : fileId ≠ [])
    (hfetch : st.fetch fileId = some manifestBytes)
    (hdec : decodeManifest manifestBytes = some (name, handles))
    (hparts : fetchParts st handles = some parts)
    (hperm : order.Perm (List.range handles.length)) :
    writeSlots (fun i => (st.fetch (handles.getD i [])).getD []) order
        (List.replicate handles.length none)
      = parts.map some
    ∧ handleDownload typeByExt st fileId []
        = .ok (("application/octet-stream").data) true parts.flatten := by
  obtain ⟨hlen, hall⟩ := fetchParts_spec st handles parts hparts
  constructor
  · rw [writeSlots_perm _ order handles.length hperm]
    have h1 : (List.range handles.length).map
          (fun i => some ((st.fetch (handles.getD i [])).getD []))
        = (List.range handles.length).map (fun i => some (parts.getD i [])) := by
      apply List.map_congr_left
      intro i hi
      rw [hall i (List.mem_range.mp hi)]
      rfl
    rw [h1, ← hlen, show (fun i => some (parts.getD i []))
        = (some ∘ fun i => parts.getD i []) from rfl,
      ← List.map_map, map_getD_range]
  · unfold handleDownload
    rw [if_neg hid, if_neg (by simp)]
    simp only [hfetch, hdec, hparts]

theorem c7_reassembly_order_witness :
    (('m' :: []) ≠ ([] : List Char)
      ∧ BlobStore.fetch
          ⟨[(('m' :: []), ('f' :: '\n' :: 'p' :: '\n' :: 'q' :: '\n' :: [])),
            (('p' :: []), ('x' :: [])), (('q' :: []), ('y' :: []))]⟩
          ('m' :: [])
          = some ('f' :: '\n' :: 'p' :: '\n' :: 'q' :: '\n' :: [])
      ∧ decodeManifest ('f' :: '\n' :: 'p' :: '\n' :: 'q' :: '\n' :: [])
          = some (('f' :: []), ('p' :: []) :: ('q' :: []) :: [])
      ∧ fetchParts
          ⟨[(('m' :: []), ('f' :: '\n' :: 'p' :: '\n' :: 'q' :: '\n' :: [])),
            (('p' :: []), ('x' :: [])), (('q' :: []), ('y' :: []))]⟩
          (('p' :: []) :: ('q' :: []) :: [])
          = some (('x' :: []) :: ('y' :: []) :: [])
      ∧ (1 :: 0 :: []).Perm
          (List.range (('p' :: []) :: ('q' :: []) :: []).length))
    ∧ writeSlots
        (fun i => ((BlobStore.fetch
            ⟨[(('m' :: []), ('f' :: '\n' :: 'p' :: '\n' :: 'q' :: '\n' :: [])),
              (('p' :: []), ('x' :: [])), (('q' :: []), ('y' :: []))]⟩
            ((('p' :: []) :: ('q' :: []) :: []).getD i []))).getD [])
        (1 :: 0 :: [])
        (List.replicate (('p' :: []) :: ('q' :: []) :: []).length none)
      = (('x' :: []) :: ('y' :: []) :: []).map some
    ∧ handleDownload (fun _ => [])
        ⟨[(('m' :: []), ('f' :: '\n' :: 'p' :: '\n' :: 'q' :: '\n' :: [])),
          (('p' :: []), ('x' :: [])), (('q' :: []), ('y' :: []))]⟩
        ('m' :: []) []
      = .ok (("application/octet-stream").data) true
          ((('x' :: []) :: ('y' :: []) :: []).flatten) :=
  ⟨⟨by decide, by decide, by decide, by decide, by decide⟩,
   (c7_reassembly_order (fun _ => [])
      ⟨[(('m' :: []), ('f' :: '\n' :: 'p' :: '\n' :: 'q' :: '\n' :: [])),
        (('p' :: []), ('x' :: [])), (('q' :: []), ('y' :: []))]⟩
      ('m' :: []) ('f' :: '\n' :: 'p' :: '\n' :: 'q' :: '\n' :: []) ('f' :: [])
      (('p' :: []) :: ('q' :: []) :: []) (('x' :: []) :: ('y' :: []) :: [])
      (1 :: 0 :: []) (by decide) (by decide) (by decide) (by decide)
      (by decide)).1,
   (c7_reassembly_order (fun _ => [])
      ⟨[(('m' :: []), ('f' :: '\n' :: 'p' :: '\n' :: 'q' :: '\n' :: [])),
        (('p' :: []), ('x' :: [])), (('q' :: []), ('y' :: []))]⟩
      ('m' :: []) ('f' :: '\n' :: 'p' :: '\n' :: 'q' :: '\n' :: []) ('f' :: [])
      (('p' :: []) :: ('q' :: []) :: []) (('x' :: []) :: ('y' :: []) :: [])
      (1 :: 0 :: []) (by decide) (by decide) (by decide) (by decide)
      (by decide)).2⟩

/-- State of one transfer job's worker pool (src/main.go, lines 341-365 for
the upload, 516-558 for the download): `waiting` operations not yet
submitted, `running` tasks spawned and not yet finished, `done` finished
tasks, `tokens` the occupancy of the semaphore channel `sem` (a buffered
channel of capacity `threadNumbers`), and `joined` whether `wg.Wait()` has
returned and the job proceeded to its next phase.  A task holds its token
from just before its goroutine is spawned until the deferred release when
it finishes, so operations in flight never exceed the token count. -/
structure PoolState where
  waiting : Nat
  running : Nat
  done : Nat
  tokens : Nat
  joined : Bool
deriving DecidableEq

/-- Initial pool state of a job with `n` transfer operations. -/
def initPool (n : Nat) : PoolState :=
  ⟨n, 0, 0, 0, false⟩

/-- One scheduler step.  `submit` models the submitting loop's semaphore
send followed by the goroutine spawn (src/main.go, lines 347-348 and
525-526): it is enabled only while the channel holds fewer than
`threadNumbers` tokens, so submitting the `W+1`-th operation blocks until a
slot frees.  `finish` models a task completing its blob-store operation and
then releasing its token through the deferred receive from `sem`.  `join`
models `wg.Wait()` returning: it requires every task to have been submitted
and finished. -/
inductive PoolStep : PoolState → PoolState → Prop where
  | submit (s : PoolState) (hw : 0 < s.waiting)
      (ht : s.tokens < threadNumbers) (hj : s.joined = false) :
      PoolStep s ⟨s.waiting - 1, s.running + 1, s.done, s.tokens + 1, false⟩
  | finish (s : PoolState) (hr : 0 < s.running) :
      PoolStep s ⟨s.waiting, s.running - 1, s.done + 1, s.tokens - 1, s.joined⟩
  | join (s : PoolState) (hw : s.waiting = 0) (hr : s.running = 0)
      (hj : s.joined = false) :
      PoolStep s ⟨0, 0, s.done, s.tokens, true⟩

/-- C9: in every scheduler state reachable by a transfer job with `n`
blob-store operations, the number of operations in flight never exceeds the
token count, the token count never exceeds `threadNumbers = 4`, no
operation is lost, and the job proceeds to its next phase (`joined`) only
after all `n` operations have finished (all tasks joined). -/
theorem c9_concurrency_bound (n : Nat) (s : PoolState)
    (hreach : Relation.ReflTransGen PoolStep (initPool n) s) :
    s.running ≤ s.tokens ∧ s.tokens ≤ threadNumbers
    ∧ s.waiting + s.running + s.done = n
    ∧ (s.joined = true → s.done = n ∧ s.running = 0) := by
  induction hreach with
  | refl =>
    refine ⟨by simp [initPool], by simp [initPool, threadNumbers],
      by simp [initPool], by simp [initPool]⟩
  | tail hr hstep ih =>
    obtain ⟨ih1, ih2, ih3, ih4⟩ := ih
    cases hstep with
    | submit hw ht hj =>
      refine ⟨by simp only []; omega, by simp only []; omega,
        by simp only []; omega, by simp⟩
    | finish hrn =>
      refine ⟨by simp only []; omega, by simp only []; omega,
        by simp only []; omega, ?_⟩
      intro hjt
      exact absurd (ih4 hjt).2 (by simp only [] at hjt ⊢; omega)
    | join hw hrn hj =>
      refine ⟨by simp only []; omega, by simp only []; omega,
        by simp only []; omega, ?_⟩
      intro _
      constructor
      · simp only []
        omega
      · rfl

theorem c9_concurrency_bound_witness :
    (initPool 10).running ≤ (initPool 10).tokens
    ∧ (initPool 10).tokens ≤ threadNumbers
    ∧ (initPool 10).waiting + (initPool 10).running + (initPool 10).done = 10
    ∧ ((initPool 10).joined = true →
        (initPool 10).done = 10 ∧ (initPool 10).running = 0) :=
  c9_concurrency_bound 10 (initPool 10) Relation.ReflTransGen.refl

end TgDisk
